import Mathlib

/-!
Verification of the FoodData Central batch loader
(src/import_with_python.py) against its specification.

The loader reads a JSON document, deduplicates nutrient records,
and issues Cypher statements against a Neo4j store. We embed the
relevant fragment shallowly: the graph store is a record of node
and relationship lists, each Cypher statement becomes a state
transformer, and the uniqueness constraint on Food.fdcId (installed
by create_constraints_and_indexes before any data is written) makes
food creation fallible, modelled with Except.
-/

namespace FdaFood

/-- Batch size for food records (FOOD_BATCH_SIZE = 100). -/
def FOOD_BATCH_SIZE : Nat := 100

/-- Batch size for nutrient records (NUTRIENT_BATCH_SIZE = 1000). -/
def NUTRIENT_BATCH_SIZE : Nat := 1000

/-- A nutrient sub-object of a foodNutrients entry: fn[nutrient]
with its id, name, number, unitName and rank fields. -/
structure Nutrient where
  id : Nat
  name : String
  number : String
  unitName : String
  rank : Nat
deriving DecidableEq, Repr

/-- A JSON number as parsed by the json module: either an integer
or a floating-point literal (modelled exactly as a rational). -/
inductive JNum where
  | jint (n : Int)
  | jfloat (q : ℚ)
deriving DecidableEq, Repr

/-- The rational value carried by a JSON number. -/
def JNum.toRat : JNum → ℚ
  | .jint n => (n : ℚ)
  | .jfloat q => q

/-- The foodNutrientDerivation sub-object; its code and description
keys may each be absent. -/
structure Derivation where
  code : Option String
  description : Option String
deriving DecidableEq, Repr

/-- One entry of a foodNutrients array. The nutrient key is accessed
with mandatory indexing in the source; the remaining keys are read
with dict.get and may be absent, hence Option. -/
structure FoodNutrient where
  nutrient : Nutrient
  amount : Option JNum
  dataPoints : Option JNum
  foodNutrientDerivation : Option Derivation
  min : Option JNum
  max : Option JNum
  median : Option JNum
deriving DecidableEq, Repr

/-- The foodCategory sub-object of a food record. -/
structure FoodCategory where
  id : Nat
  code : String
  description : String
deriving DecidableEq, Repr

/-- A food record of the FoundationFoods array. foodNutrients is
Option to model a record lacking the key entirely: the source reads
it as food.get with default empty list. -/
structure Food where
  fdcId : Nat
  description : String
  foodClass : String
  dataType : String
  ndbNumber : Nat
  publicationDate : String
  foodCategory : FoodCategory
  foodNutrients : Option (List FoodNutrient)
deriving DecidableEq, Repr

/-- A Food node as stored: the properties set by the CREATE ... SET
statement of create_foods_and_categories. -/
structure FoodNode where
  fdcId : Nat
  description : String
  foodClass : String
  dataType : String
  ndbNumber : Nat
  publicationDate : String
deriving DecidableEq, Repr

/-- A property value as stored on a HAS_NUTRIENT relationship:
null, a Neo4j integer, a Neo4j float (modelled exactly), or a string. -/
inductive PropVal where
  | null
  | int (n : Int)
  | float (q : ℚ)
  | str (s : String)
deriving DecidableEq, Repr

/-- Cypher toFloat: integers are widened to float, floats and null
pass through. (Strings would be parsed or become null; the loader
never feeds a string to toFloat, and this model maps them to null.) -/
def toFloat : PropVal → PropVal
  | .null => .null
  | .int n => .float n
  | .float q => .float q
  | .str _ => .null

/-- Encode an optional JSON number as a driver parameter value. -/
def encNum : Option JNum → PropVal
  | none => .null
  | some (.jint n) => .int n
  | some (.jfloat q) => .float q

/-- Encode an optional string as a driver parameter value. -/
def encStr : Option String → PropVal
  | none => .null
  | some s => .str s

/-- The properties set on one HAS_NUTRIENT relationship. -/
structure Measurement where
  amount : PropVal
  dataPoints : PropVal
  derivationCode : PropVal
  derivationDescription : PropVal
  min : PropVal
  max : PropVal
  median : PropVal
deriving DecidableEq, Repr

/-- The measurement stored for one foodNutrients entry, following the
SET clause of create_nutrient_relationships: amount, min, max and
median go through toFloat, dataPoints and the derivation fields are
passed through as given (null when absent). -/
def mkMeasurement (fn : FoodNutrient) : Measurement :=
  { amount := toFloat (encNum fn.amount)
    dataPoints := encNum fn.dataPoints
    derivationCode := encStr (fn.foodNutrientDerivation.bind (fun d => d.code))
    derivationDescription := encStr (fn.foodNutrientDerivation.bind (fun d => d.description))
    min := toFloat (encNum fn.min)
    max := toFloat (encNum fn.max)
    median := toFloat (encNum fn.median) }

/-- The graph store: node lists per label and relationship lists.
BELONGS_TO rows are (food fdcId, category id); HAS_NUTRIENT rows are
(food fdcId, nutrient id, properties). -/
structure GraphState where
  nutrients : List Nutrient
  categories : List FoodCategory
  foods : List FoodNode
  belongsTo : List (Nat × Nat)
  hasNutrient : List (Nat × Nat × Measurement)
deriving DecidableEq, Repr

/-- The empty store. -/
def emptyGraph : GraphState :=
  { nutrients := [], categories := [], foods := [], belongsTo := [], hasNutrient := [] }

/-- Python dict assignment keyed by nutrient id, for the nutrients
dict of create_nutrients: if the key is present its value is
overwritten in place, otherwise the pair is appended (dicts preserve
first-insertion order of keys). -/
def dictInsert (m : List Nutrient) (n : Nutrient) : List Nutrient :=
  if m.any (fun p => p.id == n.id) then m.map (fun p => if p.id == n.id then n else p)
  else m ++ [n]

/-- Python dict lookup keyed by nutrient id. -/
def dictFind (m : List Nutrient) (k : Nat) : Option Nutrient :=
  m.find? (fun p => p.id == k)

/-- The inner loop of the nutrient-collection phase: fold the
foodNutrients entries of one food into the dict; a missing
foodNutrients key contributes the empty list. -/
def collectFood (m : List Nutrient) (f : Food) : List Nutrient :=
  (f.foodNutrients.getD []).foldl (fun m fn => dictInsert m fn.nutrient) m

/-- The nutrient-collection phase of create_nutrients: scan all food
records, building the dict keyed by nutrient id. -/
def collectNutrients (foods : List Food) : List Nutrient :=
  foods.foldl collectFood []

/-- Batch slicing: range over the list in steps of k, taking the
slice of length at most k at each step, as in the Python slice
loop. (k = 0 is never used; it yields no batches here.) -/
def chunks (k : Nat) (l : List α) : List (List α) :=
  if k = 0 then []
  else
    match l with
    | [] => []
    | a :: rest => (a :: rest).take k :: chunks k ((a :: rest).drop k)
termination_by l.length
decreasing_by
  simp only [List.length_drop, List.length_cons]
  omega

/-- The nutrient batches submitted by create_nutrients. -/
def nutrientBatches (l : List Nutrient) : List (List Nutrient) :=
  chunks NUTRIENT_BATCH_SIZE l

/-- The food batches submitted by create_foods_and_categories. -/
def foodBatches (l : List Food) : List (List Food) :=
  chunks FOOD_BATCH_SIZE l

/-- MERGE (n:Nutrient \x7bid\x7d) ON CREATE SET ...: create the node with
its descriptive fields only when no node with that id exists. -/
def mergeNutrient (s : GraphState) (n : Nutrient) : GraphState :=
  if s.nutrients.any (fun m => m.id == n.id) then s
  else { s with nutrients := s.nutrients ++ [n] }

/-- create_nutrients: collect the unique nutrients, then submit them
in batches, each batch one bulk MERGE statement. -/
def create_nutrients (s : GraphState) (foods : List Food) : GraphState :=
  (nutrientBatches (collectNutrients foods)).foldl
    (fun s batch => batch.foldl mergeNutrient s) s

/-- MERGE (fc:FoodCategory \x7bid\x7d) ON CREATE SET ...: create the
category with its fields only when absent. -/
def mergeCategory (s : GraphState) (c : FoodCategory) : GraphState :=
  if s.categories.any (fun d => d.id == c.id) then s
  else { s with categories := s.categories ++ [c] }

/-- The Food node built by the CREATE ... SET clause. -/
def mkFoodNode (f : Food) : FoodNode :=
  { fdcId := f.fdcId, description := f.description, foodClass := f.foodClass,
    dataType := f.dataType, ndbNumber := f.ndbNumber, publicationDate := f.publicationDate }

/-- One UNWIND row of the food batch statement: merge the category,
then CREATE the Food node — which violates the uniqueness constraint
on Food.fdcId when a node with that fdcId already exists — and link
food to category with BELONGS_TO. -/
def processFood (s : GraphState) (f : Food) : Except String GraphState :=
  let s1 := mergeCategory s f.foodCategory
  if s1.foods.any (fun g => g.fdcId == f.fdcId) then
    .error "uniqueness constraint violated on Food.fdcId"
  else
    .ok { s1 with
          foods := s1.foods ++ [mkFoodNode f],
          belongsTo := s1.belongsTo ++ [(f.fdcId, f.foodCategory.id)] }

/-- Fold a fallible step over a list, stopping at the first error,
as the driver propagates the first query error. -/
def foldE (f : GraphState → α → Except String GraphState) :
    GraphState → List α → Except String GraphState
  | s, [] => .ok s
  | s, a :: l =>
    match f s a with
    | .error e => .error e
    | .ok s1 => foldE f s1 l

/-- create_foods_and_categories: process the food records in batches,
each row merging the category, creating the food and linking it. -/
def create_foods_and_categories (s : GraphState) (foods : List Food) :
    Except String GraphState :=
  foldE (fun s batch => foldE processFood s batch) s (foodBatches foods)

/-- The rows produced for one food by the HAS_NUTRIENT statement:
MATCH on the food fdcId yields no rows when the food node is absent;
each UNWIND row then MATCHes the nutrient id, dropping the row when
the nutrient node is absent; each surviving row CREATEs one
relationship carrying the measurement. -/
def measurementsFor (s : GraphState) (f : Food) : List (Nat × Nat × Measurement) :=
  if s.foods.any (fun g => g.fdcId == f.fdcId) then
    (f.foodNutrients.getD []).filterMap (fun fn =>
      if s.nutrients.any (fun n => n.id == fn.nutrient.id) then
        some (f.fdcId, fn.nutrient.id, mkMeasurement fn)
      else none)
  else []

/-- create_nutrient_relationships: iterate the foods one at a time,
appending the relationships created for each. -/
def create_nutrient_relationships (s : GraphState) (foods : List Food) : GraphState :=
  foods.foldl (fun s f => { s with hasNutrient := s.hasNutrient ++ measurementsFor s f }) s

/-- All nutrient sub-objects of the input, in traversal order of the
collection loop of create_nutrients. -/
def allNutrients (foods : List Food) : List Nutrient :=
  (foods.map (fun f => (f.foodNutrients.getD []).map (fun fn => fn.nutrient))).flatten

/-- Failure of load_json_data: a JSON decode error on malformed input,
or a missing-key error on a document without the FoundationFoods key. -/
inductive LoadError where
  | parseError
  | keyError
deriving DecidableEq, Repr

/-- The parsed JSON document; FoundationFoods is Option to model a
document lacking the top-level key. -/
structure JsonDoc where
  FoundationFoods : Option (List Food)
deriving DecidableEq, Repr

/-- load_json_data, on the outcome of json.load (none models malformed
input, on which json.load raises): the source then indexes the
FoundationFoods key — raising on a document lacking it — and returns
the whole parsed document. -/
def load_json_data : Option JsonDoc → Except LoadError JsonDoc
  | none => .error .parseError
  | some data =>
    match data.FoundationFoods with
    | none => .error .keyError
    | some _ => .ok data

/-- Referential integrity: every HAS_NUTRIENT relationship connects a
Food node and a Nutrient node that exist in the store. -/
def relIntegrity (s : GraphState) : Prop :=
  ∀ r ∈ s.hasNutrient,
    (∃ g ∈ s.foods, g.fdcId = r.1) ∧ (∃ n ∈ s.nutrients, n.id = r.2.1)

/-- Sample nutrient record. -/
def nutA : Nutrient :=
  { id := 1003, name := "Protein", number := "203", unitName := "g", rank := 600 }

/-- Sample nutrient record with the same identifier as nutA but
different descriptive attributes. -/
def nutB : Nutrient :=
  { id := 1003, name := "Protein (revised)", number := "203", unitName := "g", rank := 600 }

/-- A foodNutrients entry referencing a given nutrient, with a present
integer amount and dataPoints and no other optional fields. -/
def fnOf (n : Nutrient) : FoodNutrient :=
  { nutrient := n, amount := some (.jint 5), dataPoints := some (.jint 3),
    foodNutrientDerivation := none, min := none, max := none, median := none }

/-- Sample category record. -/
def catA : FoodCategory :=
  { id := 1, code := "0100", description := "Dairy and Egg Products" }

/-- Sample food record referencing nutA. -/
def foodA : Food :=
  { fdcId := 100001, description := "Milk", foodClass := "FinalFood",
    dataType := "Foundation", ndbNumber := 1077, publicationDate := "2025-04-24",
    foodCategory := catA, foodNutrients := some [fnOf nutA] }

/-- Sample food record referencing nutB (same nutrient id as nutA). -/
def foodB : Food :=
  { fdcId := 100002, description := "Yogurt", foodClass := "FinalFood",
    dataType := "Foundation", ndbNumber := 1116, publicationDate := "2025-04-24",
    foodCategory := catA, foodNutrients := some [fnOf nutB] }

/-- Sample food record lacking the foodNutrients key. -/
def foodNoNutrients : Food :=
  { fdcId := 100003, description := "Salt", foodClass := "FinalFood",
    dataType := "Foundation", ndbNumber := 2047, publicationDate := "2025-04-24",
    foodCategory := catA, foodNutrients := none }

/-- A store that already contains the food node of foodA. -/
def storeWithFoodA : GraphState :=
  { emptyGraph with foods := [mkFoodNode foodA] }

/-- The store produced by loading foodA into the empty store. -/
def storeAfterFoodA : GraphState :=
  { nutrients := [], categories := [catA], foods := [mkFoodNode foodA],
    belongsTo := [(100001, 1)], hasNutrient := [] }

/-- A store containing only the nutrient node nutA. -/
def storeWithNutA : GraphState :=
  { emptyGraph with nutrients := [nutA] }

/-- A store containing the food node of foodA and the nutrient node
nutA, ready for the HAS_NUTRIENT phase. -/
def storeForRels : GraphState :=
  { emptyGraph with foods := [mkFoodNode foodA], nutrients := [nutA] }

/-- A parsed document carrying the FoundationFoods key. -/
def docWithFoods : JsonDoc := { FoundationFoods := some [foodA] }

/-- A parsed document lacking the FoundationFoods key. -/
def docWithoutFoods : JsonDoc := { FoundationFoods := none }

/-! ### Lemmas about batch slicing -/

/-- Slicing with step zero yields no batches. -/
theorem chunks_zero (l : List α) : chunks 0 l = [] := by
  rw [chunks.eq_def]
  simp

/-- Slicing the empty list yields no batches. -/
theorem chunks_nil (k : Nat) : chunks k ([] : List α) = [] := by
  rw [chunks.eq_def]
  simp

/-- Unfolding of slicing on a nonempty list with nonzero step. -/
theorem chunks_cons (k : Nat) (hk : k ≠ 0) (a : α) (rest : List α) :
    chunks k (a :: rest) = (a :: rest).take k :: chunks k ((a :: rest).drop k) := by
  rw [chunks.eq_def]
  simp [hk]

/-- The batches concatenate back to the original list. -/
theorem chunks_flatten (k : Nat) (hk : k ≠ 0) (l : List α) :
    (chunks k l).flatten = l := by
  match l with
  | [] => rw [chunks_nil]; rfl
  | a :: rest =>
    rw [chunks_cons k hk, List.flatten_cons,
      chunks_flatten k hk ((a :: rest).drop k)]
    exact List.take_append_drop k (a :: rest)
termination_by l.length
decreasing_by
  simp only [List.length_drop, List.length_cons]
  omega

/-- Every batch has length at most the step. -/
theorem chunks_length_le (k : Nat) (l : List α) :
    ∀ b ∈ chunks k l, b.length ≤ k := by
  match l with
  | [] => rw [chunks_nil]; intro b hb; cases hb
  | a :: rest =>
    by_cases hk : k = 0
    · subst hk; rw [chunks_zero]; intro b hb; cases hb
    · rw [chunks_cons k hk]
      intro b hb
      cases hb with
      | head =>
        simp only [List.length_take]
        exact Nat.min_le_left _ _
      | tail _ hb => exact chunks_length_le k ((a :: rest).drop k) b hb
termination_by l.length
decreasing_by
  simp only [List.length_drop, List.length_cons]
  omega

/-- Slicing a nonempty list with nonzero step yields at least one batch. -/
theorem chunks_ne_nil (k : Nat) (hk : k ≠ 0) (l : List α) (hl : l ≠ []) :
    chunks k l ≠ [] := by
  match l with
  | [] => exact absurd rfl hl
  | a :: rest =>
    rw [chunks_cons k hk]
    exact List.cons_ne_nil _ _

/-- Every batch except possibly the last is full. -/
theorem chunks_dropLast_full (k : Nat) (hk : k ≠ 0) (l : List α) :
    ∀ b ∈ (chunks k l).dropLast, b.length = k := by
  match l with
  | [] => rw [chunks_nil]; intro b hb; cases hb
  | a :: rest =>
    rw [chunks_cons k hk]
    cases hrest : chunks k ((a :: rest).drop k) with
    | nil => intro b hb; cases hb
    | cons c cs =>
      rw [List.dropLast_cons₂]
      intro b hb
      cases hb with
      | head =>
        have hdrop : (a :: rest).drop k ≠ [] := by
          intro hnil
          rw [hnil, chunks_nil] at hrest
          cases hrest
        have hlen : k < (a :: rest).length := by
          by_contra hle
          exact hdrop (List.drop_eq_nil_of_le (Nat.le_of_not_lt hle))
        simp only [List.length_cons] at hlen
        simp only [List.length_take, List.length_cons]
        omega
      | tail _ hb =>
        have := chunks_dropLast_full k hk ((a :: rest).drop k)
        rw [hrest] at this
        exact this b hb
termination_by l.length
decreasing_by
  simp only [List.length_drop, List.length_cons]
  omega

/-- Folding batchwise is folding the original list. -/
theorem foldl_chunks (k : Nat) (hk : k ≠ 0) (f : β → α → β) (l : List α) (init : β) :
    (chunks k l).foldl (fun s b => b.foldl f s) init = l.foldl f init := by
  match l with
  | [] => rw [chunks_nil]; rfl
  | a :: rest =>
    rw [chunks_cons k hk]
    rw [List.foldl_cons, foldl_chunks k hk f ((a :: rest).drop k)]
    rw [← List.foldl_append]
    rw [List.take_append_drop]
termination_by l.length
decreasing_by
  simp only [List.length_drop, List.length_cons]
  omega

/-- Fallible folding over a split list. -/
theorem foldE_append (f : GraphState → α → Except String GraphState)
    (l1 l2 : List α) (s : GraphState) :
    foldE f s (l1 ++ l2) =
      match foldE f s l1 with
      | .error e => .error e
      | .ok s1 => foldE f s1 l2 := by
  induction l1 generalizing s with
  | nil => rfl
  | cons a l ih =>
    rw [List.cons_append]
    rw [foldE]
    rw [foldE]
    cases f s a with
    | error e => rfl
    | ok s1 => exact ih s1

/-- Fallible folding batchwise is fallible folding of the original list. -/
theorem foldE_chunks (k : Nat) (hk : k ≠ 0)
    (f : GraphState → α → Except String GraphState) (l : List α) (s : GraphState) :
    foldE (fun s b => foldE f s b) s (chunks k l) = foldE f s l := by
  match l with
  | [] => rw [chunks_nil]; rfl
  | a :: rest =>
    rw [chunks_cons k hk]
    rw [foldE]
    have hsplit := foldE_append f ((a :: rest).take k) ((a :: rest).drop k) s
    rw [List.take_append_drop] at hsplit
    rw [hsplit]
    cases foldE f s ((a :: rest).take k) with
    | error e => rfl
    | ok s1 => exact foldE_chunks k hk f ((a :: rest).drop k) s1
termination_by l.length
decreasing_by
  simp only [List.length_drop, List.length_cons]
  omega

/-! ### Lemmas about the nutrient dict -/

/-- Updating a key whose Nat key differs from k leaves lookup at k alone. -/
theorem find_update_of_ne (n : Nutrient) (k : Nat) (hnk : (n.id == k) = false)
    (m : List Nutrient) :
    (m.map (fun p => if p.id == n.id then n else p)).find? (fun p => p.id == k)
      = m.find? (fun p => p.id == k) := by
  induction m with
  | nil => rfl
  | cons p ps ih =>
    simp only [List.map_cons]
    by_cases hp : (p.id == n.id) = true
    · have hpn : p.id = n.id := by simpa using hp
      have hpk : (p.id == k) = false := by rw [hpn]; exact hnk
      rw [if_pos hp]
      simp only [List.find?_cons, hnk, hpk]
      exact ih
    · rw [if_neg hp]
      by_cases hpk : (p.id == k) = true
      · simp only [List.find?_cons, hpk]
      · simp only [List.find?_cons, Bool.eq_false_iff.mpr hpk]
        exact ih

/-- Updating a present key makes lookup at that key return the new value. -/
theorem find_update_of_eq (n : Nutrient) (k : Nat) (hnk : (n.id == k) = true) :
    ∀ m : List Nutrient, m.any (fun p => p.id == n.id) = true →
      (m.map (fun p => if p.id == n.id then n else p)).find? (fun p => p.id == k)
        = some n := by
  intro m
  induction m with
  | nil => intro h; cases h
  | cons p ps ih =>
    intro hany
    simp only [List.map_cons]
    by_cases hp : (p.id == n.id) = true
    · rw [if_pos hp]
      simp only [List.find?_cons, hnk]
    · rw [if_neg hp]
      have hpk : (p.id == k) = false := by
        apply Bool.eq_false_iff.mpr
        intro hkk
        apply hp
        have h1 : p.id = k := by simpa using hkk
        have h2 : n.id = k := by simpa using hnk
        simp [h1, h2]
      simp only [List.find?_cons, hpk]
      apply ih
      simp only [List.any_cons, Bool.or_eq_true] at hany
      exact hany.resolve_left hp

/-- Dict assignment then lookup: the assigned key now maps to the new
value, every other key is untouched. -/
theorem dictFind_insert (m : List Nutrient) (n : Nutrient) (k : Nat) :
    dictFind (dictInsert m n) k = if n.id == k then some n else dictFind m k := by
  unfold dictInsert dictFind
  by_cases hm : m.any (fun p => p.id == n.id) = true
  · rw [if_pos hm]
    by_cases hnk : (n.id == k) = true
    · rw [if_pos hnk]
      exact find_update_of_eq n k hnk m hm
    · rw [if_neg hnk]
      exact find_update_of_ne n k (Bool.eq_false_iff.mpr hnk) m
  · rw [if_neg hm]
    rw [List.find?_append]
    by_cases hnk : (n.id == k) = true
    · rw [if_pos hnk]
      have hmk : m.find? (fun p => p.id == k) = none := by
        rw [List.find?_eq_none]
        intro x hx hxk
        apply hm
        rw [List.any_eq_true]
        refine ⟨x, hx, ?_⟩
        have h1 : x.id = k := by simpa using hxk
        have h2 : n.id = k := by simpa using hnk
        simp [h1, h2]
      rw [hmk]
      simp only [List.find?_cons, hnk]
      rfl
    · rw [if_neg hnk]
      simp only [List.find?_cons, Bool.eq_false_iff.mpr hnk, List.find?_nil]
      exact Option.or_none

/-- The keys of the dict after an assignment: unchanged when the key
was present, extended by the new key otherwise. -/
theorem dictInsert_ids (m : List Nutrient) (n : Nutrient) :
    (dictInsert m n).map (fun p => p.id)
      = if m.any (fun p => p.id == n.id) then m.map (fun p => p.id)
        else m.map (fun p => p.id) ++ [n.id] := by
  unfold dictInsert
  by_cases hm : m.any (fun p => p.id == n.id) = true
  · rw [if_pos hm, if_pos hm, List.map_map]
    apply List.map_congr_left
    intro p _
    show (if p.id == n.id then n else p).id = p.id
    by_cases hp : (p.id == n.id) = true
    · rw [if_pos hp]
      have hpn : p.id = n.id := by simpa using hp
      exact hpn.symm
    · rw [if_neg hp]
  · rw [if_neg hm, if_neg hm, List.map_append]
    rfl

/-- Folding dict assignments keeps the keys free of duplicates. -/
theorem foldl_dictInsert_ids_nodup :
    ∀ (l : List Nutrient) (m : List Nutrient),
      ((m.map (fun p => p.id)).Nodup) →
      (((l.foldl dictInsert m).map (fun p => p.id)).Nodup) := by
  intro l
  induction l with
  | nil => intro m h; exact h
  | cons n rest ih =>
    intro m h
    rw [List.foldl_cons]
    apply ih
    rw [dictInsert_ids]
    by_cases hm : m.any (fun p => p.id == n.id) = true
    · rw [if_pos hm]; exact h
    · rw [if_neg hm]
      have hnotin : n.id ∉ m.map (fun p => p.id) := by
        intro hin
        apply hm
        rw [List.any_eq_true]
        rcases List.mem_map.mp hin with ⟨p, hp, hpid⟩
        exact ⟨p, hp, by simp [hpid]⟩
      rw [List.nodup_append]
      exact ⟨h, List.nodup_singleton _, by
        intro a ha hb
        rw [List.mem_singleton] at hb
        subst hb
        exact hnotin ha⟩

/-- A key is in the dict after the fold exactly when it was there
before or occurs in the folded list. -/
theorem foldl_dictInsert_ids_mem :
    ∀ (l m : List Nutrient) (i : Nat),
      (i ∈ (l.foldl dictInsert m).map (fun p => p.id))
        ↔ (i ∈ m.map (fun p => p.id) ∨ i ∈ l.map (fun p => p.id)) := by
  intro l
  induction l with
  | nil => simp
  | cons n rest ih =>
    intro m i
    rw [List.foldl_cons, ih]
    rw [dictInsert_ids]
    by_cases hm : m.any (fun p => p.id == n.id) = true
    · rw [if_pos hm]
      simp only [List.map_cons, List.mem_cons]
      constructor
      · rintro (h | h)
        · exact Or.inl h
        · exact Or.inr (Or.inr h)
      · rintro (h | h | h)
        · exact Or.inl h
        · subst h
          left
          rw [List.any_eq_true] at hm
          rcases hm with ⟨p, hp, hpn⟩
          have hpid : p.id = n.id := by simpa using hpn
          exact List.mem_map.mpr ⟨p, hp, hpid⟩
        · exact Or.inr h
    · rw [if_neg hm]
      simp only [List.mem_append, List.mem_singleton, List.map_cons, List.mem_cons]
      tauto

/-- The last element of a nonempty list is some value. -/
theorem getLast?_cons_some (a : α) (l : List α) : ∃ b, (a :: l).getLast? = some b := by
  induction l generalizing a with
  | nil => exact ⟨a, rfl⟩
  | cons c cs ih =>
    rw [List.getLast?_cons_cons]
    exact ih c

/-- Lookup after folding dict assignments returns the last assigned
value for the key, falling back to the initial dict. -/
theorem foldl_dictInsert_find :
    ∀ (l m : List Nutrient) (k : Nat),
      dictFind (l.foldl dictInsert m) k
        = (((l.filter (fun n => n.id == k)).getLast?).or (dictFind m k)) := by
  intro l
  induction l with
  | nil => intro m k; simp
  | cons n rest ih =>
    intro m k
    rw [List.foldl_cons, ih, dictFind_insert, List.filter_cons]
    by_cases hnk : (n.id == k) = true
    · rw [if_pos hnk, if_pos hnk]
      cases hrf : rest.filter (fun n => n.id == k) with
      | nil => simp
      | cons c cs =>
        rcases getLast?_cons_some c cs with ⟨b, hb⟩
        rw [List.getLast?_cons_cons, hb]
        rfl
    · rw [if_neg hnk, if_neg hnk]

/-- The collection loop over all foods equals the flat fold of dict
assignments over all nutrient sub-objects in traversal order. -/
theorem collect_flat :
    ∀ (foods : List Food) (m : List Nutrient),
      foods.foldl collectFood m = (allNutrients foods).foldl dictInsert m := by
  intro foods
  induction foods with
  | nil => intro m; rfl
  | cons f rest ih =>
    intro m
    rw [List.foldl_cons, ih]
    unfold allNutrients
    rw [List.map_cons, List.flatten_cons, List.foldl_append]
    congr 1
    unfold collectFood
    rw [List.foldl_map]

/-! ### Bridge lemmas: batched runs equal plain folds -/

/-- Batching is transparent for the nutrient MERGE phase. -/
theorem create_nutrients_eq (s : GraphState) (foods : List Food) :
    create_nutrients s foods = (collectNutrients foods).foldl mergeNutrient s := by
  unfold create_nutrients nutrientBatches
  exact foldl_chunks NUTRIENT_BATCH_SIZE (by decide) mergeNutrient _ s

/-- Batching is transparent for the food CREATE phase. -/
theorem create_foods_eq (s : GraphState) (foods : List Food) :
    create_foods_and_categories s foods = foldE processFood s foods := by
  unfold create_foods_and_categories foodBatches
  exact foldE_chunks FOOD_BATCH_SIZE (by decide) processFood foods s

/-! ### Lemmas about the nutrient MERGE fold -/

/-- Merging a nutrient changes only the nutrients component. -/
theorem mergeNutrient_fields (s : GraphState) (n : Nutrient) :
    (mergeNutrient s n).foods = s.foods
    ∧ (mergeNutrient s n).categories = s.categories
    ∧ (mergeNutrient s n).belongsTo = s.belongsTo
    ∧ (mergeNutrient s n).hasNutrient = s.hasNutrient := by
  unfold mergeNutrient
  by_cases h : s.nutrients.any (fun m => m.id == n.id) = true
  · rw [if_pos h]; exact ⟨rfl, rfl, rfl, rfl⟩
  · rw [if_neg h]; exact ⟨rfl, rfl, rfl, rfl⟩

/-- Merging preserves every nutrient node already present. -/
theorem mergeNutrient_mem (s : GraphState) (n : Nutrient) (m : Nutrient)
    (h : m ∈ s.nutrients) : m ∈ (mergeNutrient s n).nutrients := by
  unfold mergeNutrient
  by_cases hc : s.nutrients.any (fun p => p.id == n.id) = true
  · rw [if_pos hc]; exact h
  · rw [if_neg hc]; exact List.mem_append_left _ h

/-- The merge fold changes only the nutrients component. -/
theorem foldl_merge_fields :
    ∀ (l : List Nutrient) (s : GraphState),
      ((l.foldl mergeNutrient s).foods = s.foods
      ∧ (l.foldl mergeNutrient s).categories = s.categories
      ∧ (l.foldl mergeNutrient s).belongsTo = s.belongsTo
      ∧ (l.foldl mergeNutrient s).hasNutrient = s.hasNutrient) := by
  intro l
  induction l with
  | nil => intro s; exact ⟨rfl, rfl, rfl, rfl⟩
  | cons n rest ih =>
    intro s
    rw [List.foldl_cons]
    rcases ih (mergeNutrient s n) with ⟨h1, h2, h3, h4⟩
    rcases mergeNutrient_fields s n with ⟨g1, g2, g3, g4⟩
    exact ⟨h1.trans g1, h2.trans g2, h3.trans g3, h4.trans g4⟩

/-- The merge fold preserves every nutrient node already present. -/
theorem foldl_merge_mem :
    ∀ (l : List Nutrient) (s : GraphState) (m : Nutrient),
      m ∈ s.nutrients → m ∈ (l.foldl mergeNutrient s).nutrients := by
  intro l
  induction l with
  | nil => intro s m h; exact h
  | cons n rest ih =>
    intro s m h
    rw [List.foldl_cons]
    exact ih _ m (mergeNutrient_mem s n m h)

/-- After the merge fold, every id of the folded list has a node. -/
theorem foldl_merge_covers :
    ∀ (l : List Nutrient) (s : GraphState) (n : Nutrient),
      n ∈ l → ∃ m ∈ (l.foldl mergeNutrient s).nutrients, m.id = n.id := by
  intro l
  induction l with
  | nil => intro s n h; cases h
  | cons p rest ih =>
    intro s n h
    rw [List.foldl_cons]
    rcases List.mem_cons.mp h with h | h
    · subst h
      by_cases hc : s.nutrients.any (fun m => m.id == n.id) = true
      · rcases List.any_eq_true.mp hc with ⟨m, hm, hmid⟩
        refine ⟨m, foldl_merge_mem rest _ m ?_, by simpa using hmid⟩
        unfold mergeNutrient
        rw [if_pos hc]
        exact hm
      · refine ⟨n, foldl_merge_mem rest _ n ?_, rfl⟩
        unfold mergeNutrient
        rw [if_neg hc]
        exact List.mem_append_right _ (List.mem_singleton.mpr rfl)
    · exact ih _ n h

/-- Merging a nutrient whose id already has a node is a no-op. -/
theorem mergeNutrient_noop (s : GraphState) (n : Nutrient)
    (h : ∃ m ∈ s.nutrients, m.id = n.id) : mergeNutrient s n = s := by
  unfold mergeNutrient
  rw [if_pos ?_]
  rw [List.any_eq_true]
  rcases h with ⟨m, hm, hid⟩
  exact ⟨m, hm, by simp [hid]⟩

/-- The merge fold is a no-op when every id already has a node. -/
theorem foldl_merge_noop :
    ∀ (l : List Nutrient) (s : GraphState),
      (∀ n ∈ l, ∃ m ∈ s.nutrients, m.id = n.id) → l.foldl mergeNutrient s = s := by
  intro l
  induction l with
  | nil => intro s _; rfl
  | cons n rest ih =>
    intro s h
    rw [List.foldl_cons]
    rw [mergeNutrient_noop s n (h n (List.mem_cons_self n rest))]
    exact ih s (fun p hp => h p (List.mem_cons_of_mem n hp))

/-- Folding fresh nutrients into a store whose ids are all new simply
appends them. -/
theorem foldl_merge_all_new :
    ∀ (l : List Nutrient) (s : GraphState),
      (((s.nutrients ++ l).map (fun p => p.id)).Nodup) →
      (l.foldl mergeNutrient s).nutrients = s.nutrients ++ l := by
  intro l
  induction l with
  | nil => intro s _; simp
  | cons n rest ih =>
    intro s h
    rw [List.foldl_cons]
    have hnot : ¬ (s.nutrients.any (fun m => m.id == n.id) = true) := by
      intro hc
      rcases List.any_eq_true.mp hc with ⟨m, hm, hmid⟩
      have hmn : m.id = n.id := by simpa using hmid
      rw [List.map_append, List.nodup_append] at h
      rcases h with ⟨_, _, hdisj⟩
      apply hdisj (List.mem_map.mpr ⟨m, hm, rfl⟩)
      rw [hmn]
      simp
    have hstep : mergeNutrient s n = { s with nutrients := s.nutrients ++ [n] } := by
      unfold mergeNutrient
      rw [if_neg hnot]
    rw [hstep]
    have hh : ((({ s with nutrients := s.nutrients ++ [n] } : GraphState).nutrients
        ++ rest).map (fun p => p.id)).Nodup := by
      show (((s.nutrients ++ [n]) ++ rest).map (fun p => p.id)).Nodup
      rw [List.append_assoc, List.singleton_append]
      exact h
    rw [ih _ hh]
    show (s.nutrients ++ [n]) ++ rest = s.nutrients ++ n :: rest
    rw [List.append_assoc, List.singleton_append]

/-! ### Lemmas about the food CREATE fold -/

/-- Merging a category changes only the categories component. -/
theorem mergeCategory_fields (s : GraphState) (c : FoodCategory) :
    (mergeCategory s c).foods = s.foods
    ∧ (mergeCategory s c).nutrients = s.nutrients
    ∧ (mergeCategory s c).belongsTo = s.belongsTo
    ∧ (mergeCategory s c).hasNutrient = s.hasNutrient := by
  unfold mergeCategory
  by_cases h : s.categories.any (fun d => d.id == c.id) = true
  · rw [if_pos h]; exact ⟨rfl, rfl, rfl, rfl⟩
  · rw [if_neg h]; exact ⟨rfl, rfl, rfl, rfl⟩

/-- A successful food row appends exactly one food node and one
BELONGS_TO relationship, and leaves nutrients and HAS_NUTRIENT alone. -/
theorem processFood_ok (s : GraphState) (f : Food) (s1 : GraphState)
    (h : processFood s f = .ok s1) :
    s1.foods = s.foods ++ [mkFoodNode f]
    ∧ s1.belongsTo = s.belongsTo ++ [(f.fdcId, f.foodCategory.id)]
    ∧ s1.nutrients = s.nutrients
    ∧ s1.hasNutrient = s.hasNutrient := by
  unfold processFood at h
  rcases mergeCategory_fields s f.foodCategory with ⟨h1, h2, h3, h4⟩
  by_cases hc : (mergeCategory s f.foodCategory).foods.any
      (fun g => g.fdcId == f.fdcId) = true
  · rw [if_pos hc] at h; cases h
  · rw [if_neg hc] at h
    injection h with h
    subst h
    exact ⟨by rw [h1], by rw [h3], h2, h4⟩

/-- A food row whose fdcId already has a node violates the uniqueness
constraint. -/
theorem processFood_dup (s : GraphState) (f : Food)
    (h : ∃ g ∈ s.foods, g.fdcId = f.fdcId) :
    ∃ e, processFood s f = .error e := by
  unfold processFood
  rcases mergeCategory_fields s f.foodCategory with ⟨h1, _, _, _⟩
  have hc : (mergeCategory s f.foodCategory).foods.any
      (fun g => g.fdcId == f.fdcId) = true := by
    rw [h1, List.any_eq_true]
    rcases h with ⟨g, hg, hid⟩
    exact ⟨g, hg, by simp [hid]⟩
  rw [if_pos hc]
  exact ⟨_, rfl⟩

/-- The fallible food fold errors whenever some input food already has
a node with its fdcId. -/
theorem foldE_processFood_dup :
    ∀ (foods : List Food) (s : GraphState),
      (∃ f ∈ foods, ∃ g ∈ s.foods, g.fdcId = f.fdcId) →
      ∃ e, foldE processFood s foods = .error e := by
  intro foods
  induction foods with
  | nil => intro s h; rcases h with ⟨f, hf, _⟩; cases hf
  | cons f rest ih =>
    intro s h
    rcases h with ⟨f0, hf0, g, hg, hid⟩
    rcases List.mem_cons.mp hf0 with hf0 | hf0
    · subst hf0
      rcases processFood_dup s f0 ⟨g, hg, hid⟩ with ⟨e, he⟩
      refine ⟨e, ?_⟩
      rw [foldE, he]
    · cases hpf : processFood s f with
      | error e => exact ⟨e, by rw [foldE, hpf]⟩
      | ok s1 =>
        rcases processFood_ok s f s1 hpf with ⟨hfoods, _, _, _⟩
        rcases ih s1 ⟨f0, hf0, g, by rw [hfoods]; exact List.mem_append_left _ hg, hid⟩
          with ⟨e, he⟩
        exact ⟨e, by rw [foldE, hpf]; exact he⟩

/-- On success, the food fold appends one BELONGS_TO relationship per
food, in input order, and leaves nutrients and HAS_NUTRIENT alone. -/
theorem foldE_processFood_ok :
    ∀ (foods : List Food) (s s1 : GraphState),
      foldE processFood s foods = .ok s1 →
      s1.belongsTo = s.belongsTo ++ foods.map (fun f => (f.fdcId, f.foodCategory.id))
      ∧ s1.nutrients = s.nutrients
      ∧ s1.hasNutrient = s.hasNutrient
      ∧ (∀ g ∈ s.foods, g ∈ s1.foods) := by
  intro foods
  induction foods with
  | nil =>
    intro s s1 h
    injection h with h
    subst h
    exact ⟨by simp, rfl, rfl, fun g hg => hg⟩
  | cons f rest ih =>
    intro s s1 h
    rw [foldE] at h
    cases hpf : processFood s f with
    | error e => rw [hpf] at h; cases h
    | ok s2 =>
      rw [hpf] at h
      rcases processFood_ok s f s2 hpf with ⟨hfoods, hbel, hnut, hrel⟩
      rcases ih s2 s1 h with ⟨ibel, inut, irel, ifoods⟩
      refine ⟨?_, inut.trans hnut, irel.trans hrel, ?_⟩
      · rw [ibel, hbel, List.map_cons, List.append_assoc, List.singleton_append]
      · intro g hg
        apply ifoods
        rw [hfoods]
        exact List.mem_append_left _ hg

/-! ### Lemmas about the HAS_NUTRIENT phase -/

/-- A guarded filterMap over a list where the guard always holds is a map. -/
theorem filterMap_if_eq_map {α β : Type} (p : α → Bool) (g : α → β) :
    ∀ l : List α, (∀ a ∈ l, p a = true) →
      l.filterMap (fun a => if p a then some (g a) else none) = l.map g := by
  intro l
  induction l with
  | nil => intro _; rfl
  | cons a rest ih =>
    intro h
    have hpa := h a (List.mem_cons_self a rest)
    rw [List.filterMap_cons, List.map_cons]
    rw [ih (fun x hx => h x (List.mem_cons_of_mem a hx))]
    simp [hpa]

/-- When the food node and all referenced nutrient nodes exist, the
rows for a food are exactly one relationship per foodNutrients entry. -/
theorem measurementsFor_all_present (s : GraphState) (f : Food)
    (hf : s.foods.any (fun g => g.fdcId == f.fdcId) = true)
    (hn : ∀ fn ∈ f.foodNutrients.getD [],
      s.nutrients.any (fun n => n.id == fn.nutrient.id) = true) :
    measurementsFor s f
      = (f.foodNutrients.getD []).map
          (fun fn => (f.fdcId, fn.nutrient.id, mkMeasurement fn)) := by
  unfold measurementsFor
  rw [if_pos hf]
  exact filterMap_if_eq_map (fun fn => s.nutrients.any (fun n => n.id == fn.nutrient.id))
    (fun fn => (f.fdcId, fn.nutrient.id, mkMeasurement fn))
    (f.foodNutrients.getD []) hn

/-- Every row produced for a food points at an existing food node and
an existing nutrient node. -/
theorem measurementsFor_integrity (s : GraphState) (f : Food) :
    ∀ r ∈ measurementsFor s f,
      (∃ g ∈ s.foods, g.fdcId = r.1) ∧ (∃ n ∈ s.nutrients, n.id = r.2.1) := by
  intro r hr
  unfold measurementsFor at hr
  by_cases hf : s.foods.any (fun g => g.fdcId == f.fdcId) = true
  · rw [if_pos hf] at hr
    rcases List.mem_filterMap.mp hr with ⟨fn, _, hsome⟩
    by_cases hn : s.nutrients.any (fun n => n.id == fn.nutrient.id) = true
    · rw [if_pos hn] at hsome
      injection hsome with hsome
      subst hsome
      constructor
      · rcases List.any_eq_true.mp hf with ⟨g, hg, hgid⟩
        exact ⟨g, hg, by simpa using hgid⟩
      · rcases List.any_eq_true.mp hn with ⟨n, hn2, hnid⟩
        exact ⟨n, hn2, by simpa using hnid⟩
    · rw [if_neg hn] at hsome; cases hsome
  · rw [if_neg hf] at hr; cases hr

/-- The HAS_NUTRIENT fold changes only the hasNutrient component. -/
theorem create_rels_fields :
    ∀ (foods : List Food) (s : GraphState),
      (create_nutrient_relationships s foods).foods = s.foods
      ∧ (create_nutrient_relationships s foods).nutrients = s.nutrients
      ∧ (create_nutrient_relationships s foods).categories = s.categories
      ∧ (create_nutrient_relationships s foods).belongsTo = s.belongsTo := by
  intro foods
  induction foods with
  | nil => intro s; exact ⟨rfl, rfl, rfl, rfl⟩
  | cons f rest ih =>
    intro s
    unfold create_nutrient_relationships at *
    rw [List.foldl_cons]
    exact ih { s with hasNutrient := s.hasNutrient ++ measurementsFor s f }

/-- When every food node and nutrient node referenced by the input
exists, the HAS_NUTRIENT fold appends exactly one relationship per
food-nutrient pair, in input order. -/
theorem create_rels_hasNutrient :
    ∀ (foods : List Food) (s : GraphState),
      (∀ f ∈ foods, s.foods.any (fun g => g.fdcId == f.fdcId) = true) →
      (∀ f ∈ foods, ∀ fn ∈ f.foodNutrients.getD [],
        s.nutrients.any (fun n => n.id == fn.nutrient.id) = true) →
      (create_nutrient_relationships s foods).hasNutrient
        = s.hasNutrient
          ++ (foods.map (fun f => (f.foodNutrients.getD []).map
                (fun fn => (f.fdcId, fn.nutrient.id, mkMeasurement fn)))).flatten := by
  intro foods
  induction foods with
  | nil => intro s _ _; simp [create_nutrient_relationships]
  | cons f rest ih =>
    intro s hf hn
    unfold create_nutrient_relationships at *
    rw [List.foldl_cons]
    have hms : measurementsFor s f
        = (f.foodNutrients.getD []).map
            (fun fn => (f.fdcId, fn.nutrient.id, mkMeasurement fn)) :=
      measurementsFor_all_present s f (hf f (List.mem_cons_self f rest))
        (hn f (List.mem_cons_self f rest))
    rw [ih { s with hasNutrient := s.hasNutrient ++ measurementsFor s f }
      (fun g hg => hf g (List.mem_cons_of_mem f hg))
      (fun g hg => hn g (List.mem_cons_of_mem f hg))]
    rw [List.map_cons, List.flatten_cons, hms, List.append_assoc]

/-! ### Helper lemmas shared by the claim theorems -/

/-- The collection phase as a flat fold of dict assignments. -/
theorem collectNutrients_flat (foods : List Food) :
    collectNutrients foods = (allNutrients foods).foldl dictInsert [] :=
  collect_flat foods []

/-- The collected dict never holds two entries with the same id. -/
theorem collectNutrients_ids_nodup (foods : List Food) :
    ((collectNutrients foods).map (fun p => p.id)).Nodup := by
  rw [collectNutrients_flat foods]
  exact foldl_dictInsert_ids_nodup (allNutrients foods) [] (by simp)

/-- The nutrient ids collected are exactly those occurring in the input. -/
theorem collectNutrients_ids_mem (foods : List Food) (i : Nat) :
    i ∈ (collectNutrients foods).map (fun p => p.id)
      ↔ i ∈ (allNutrients foods).map (fun n => n.id) := by
  rw [collectNutrients_flat foods, foldl_dictInsert_ids_mem]
  simp

/-- Loading into the empty store creates exactly the collected nutrients. -/
theorem create_nutrients_empty (foods : List Food) :
    (create_nutrients emptyGraph foods).nutrients = collectNutrients foods := by
  have hnodup := collectNutrients_ids_nodup foods
  rw [create_nutrients_eq]
  have h := foldl_merge_all_new (collectNutrients foods) emptyGraph (by
    show ((([] : List Nutrient) ++ collectNutrients foods).map (fun p => p.id)).Nodup
    rw [List.nil_append]
    exact hnodup)
  rw [h]
  exact List.nil_append _

/-- The HAS_NUTRIENT phase preserves referential integrity. -/
theorem create_rels_integrity :
    ∀ (foods : List Food) (s : GraphState),
      relIntegrity s → relIntegrity (create_nutrient_relationships s foods) := by
  intro foods
  induction foods with
  | nil => intro s hs; exact hs
  | cons f rest ih =>
    intro s hs
    unfold create_nutrient_relationships at *
    rw [List.foldl_cons]
    apply ih
    intro r hr
    rcases List.mem_append.mp hr with hr | hr
    · exact hs r hr
    · exact measurementsFor_integrity s f r hr

/-! ### Claim theorems -/

/-- Claim C1: for every input list of food records, the number of
nutrient nodes created by create_nutrients (into the empty store)
equals the number of distinct nutrient identifiers occurring across
all foodNutrients entries; repeated identifiers collapse to one node. -/
theorem create_nutrients_distinct_count (foods : List Food) :
    (create_nutrients emptyGraph foods).nutrients.length
      = ((allNutrients foods).map (fun n => n.id)).toFinset.card
    ∧ ((create_nutrients emptyGraph foods).nutrients.map (fun n => n.id)).Nodup := by
  have hnodup := collectNutrients_ids_nodup foods
  have hres := create_nutrients_empty foods
  constructor
  · rw [hres]
    have hlen : (collectNutrients foods).length
        = ((collectNutrients foods).map (fun p => p.id)).length := by
      rw [List.length_map]
    rw [hlen, ← List.toFinset_card_of_nodup hnodup]
    congr 1
    apply Finset.ext
    intro i
    rw [List.mem_toFinset, List.mem_toFinset]
    exact collectNutrients_ids_mem foods i
  · rw [hres]
    exact hnodup

/-- Claim C4 counterexample: with two foods referencing nutrient id
1003 — foodA first with attributes nutA, foodB second with attributes
nutB — the node stored carries the attributes of the LAST food record,
not the first: the claim that the first occurrence is kept is false. -/
theorem create_nutrients_first_occurrence_cex :
    (create_nutrients emptyGraph [foodA, foodB]).nutrients ≠ [nutA]
    ∧ (create_nutrients emptyGraph [foodA, foodB]).nutrients = [nutB]
    ∧ nutA ≠ nutB := by
  have h : (create_nutrients emptyGraph [foodA, foodB]).nutrients = [nutB] := by
    rw [create_nutrients_eq]
    decide
  exact ⟨by rw [h]; decide, h, by decide⟩

/-- Claim C4 (amended): the deduplication keyed by nutrient id stores,
for each identifier, the attributes of the LAST foodNutrients entry in
input order that references it (Python dict assignment overwrites the
value on repeated keys), and the nutrient nodes created into the empty
store are exactly the dict values. -/
theorem create_nutrients_keeps_last (foods : List Food) (k : Nat) :
    (create_nutrients emptyGraph foods).nutrients = collectNutrients foods
    ∧ dictFind (collectNutrients foods) k
        = ((allNutrients foods).filter (fun n => n.id == k)).getLast? := by
  refine ⟨create_nutrients_empty foods, ?_⟩
  rw [collectNutrients_flat foods, foldl_dictInsert_find]
  have h : dictFind ([] : List Nutrient) k = none := rfl
  rw [h, Option.or_none]

/-- Claim C5: nutrient upsert is create-if-absent with fields set only
at creation, and a second run of create_nutrients on the same input
leaves the state unchanged. -/
theorem nutrient_upsert_idempotent :
    (∀ (s : GraphState) (n : Nutrient),
        ((∃ m ∈ s.nutrients, m.id = n.id) → mergeNutrient s n = s)
      ∧ ((¬ ∃ m ∈ s.nutrients, m.id = n.id) →
          mergeNutrient s n = { s with nutrients := s.nutrients ++ [n] }))
    ∧ (∀ (s : GraphState) (foods : List Food),
        create_nutrients (create_nutrients s foods) foods = create_nutrients s foods) := by
  constructor
  · intro s n
    constructor
    · exact mergeNutrient_noop s n
    · intro h
      unfold mergeNutrient
      rw [if_neg ?_]
      intro hc
      rcases List.any_eq_true.mp hc with ⟨m, hm, hmid⟩
      exact h ⟨m, hm, by simpa using hmid⟩
  · intro s foods
    simp only [create_nutrients_eq]
    apply foldl_merge_noop
    intro n hn
    exact foldl_merge_covers (collectNutrients foods) s n hn

/-- Claim C5 witness: concrete instances of both merge behaviors and
of second-run idempotence. -/
theorem nutrient_upsert_idempotent_witness :
    mergeNutrient storeWithNutA nutB = storeWithNutA
    ∧ mergeNutrient emptyGraph nutA = { emptyGraph with nutrients := [nutA] }
    ∧ create_nutrients (create_nutrients emptyGraph [foodA]) [foodA]
        = create_nutrients emptyGraph [foodA] := by
  refine ⟨?_, ?_, nutrient_upsert_idempotent.2 emptyGraph [foodA]⟩
  · exact (nutrient_upsert_idempotent.1 storeWithNutA nutB).1
      ⟨nutA, List.mem_singleton.mpr rfl, rfl⟩
  · exact (nutrient_upsert_idempotent.1 emptyGraph nutA).2
      (by rintro ⟨m, hm, _⟩; cases hm)

/-- Claim C8: the nutrient batches hold at most 1000 records, the food
batches at most 100, every batch except possibly the last is full, and
the batches concatenate back to the original list in order. -/
theorem batching_partitions_input (l1 : List Nutrient) (l2 : List Food) :
    ((∀ b ∈ nutrientBatches l1, b.length ≤ NUTRIENT_BATCH_SIZE)
      ∧ (∀ b ∈ (nutrientBatches l1).dropLast, b.length = NUTRIENT_BATCH_SIZE)
      ∧ (nutrientBatches l1).flatten = l1)
    ∧ ((∀ b ∈ foodBatches l2, b.length ≤ FOOD_BATCH_SIZE)
      ∧ (∀ b ∈ (foodBatches l2).dropLast, b.length = FOOD_BATCH_SIZE)
      ∧ (foodBatches l2).flatten = l2) := by
  refine ⟨⟨?_, ?_, ?_⟩, ?_, ?_, ?_⟩
  · exact chunks_length_le NUTRIENT_BATCH_SIZE l1
  · exact chunks_dropLast_full NUTRIENT_BATCH_SIZE (by decide) l1
  · exact chunks_flatten NUTRIENT_BATCH_SIZE (by decide) l1
  · exact chunks_length_le FOOD_BATCH_SIZE l2
  · exact chunks_dropLast_full FOOD_BATCH_SIZE (by decide) l2
  · exact chunks_flatten FOOD_BATCH_SIZE (by decide) l2

/-- Claim C8 witness: the batches of concrete singleton lists
concatenate back to those lists. -/
theorem batching_partitions_input_witness :
    (nutrientBatches [nutA]).flatten = [nutA]
    ∧ (foodBatches [foodA]).flatten = [foodA] :=
  ⟨(batching_partitions_input [nutA] []).1.2.2,
   (batching_partitions_input [] [foodA]).2.2.2⟩

/-- Claim C2 counterexample: dataPoints is NOT coerced to floating
point — the SET clause stores it without toFloat, so a present integer
dataPoints is stored as an integer, not the float that coercion would
produce. -/
theorem measurement_dataPoints_not_coerced_cex :
    (mkMeasurement (fnOf nutA)).dataPoints ≠ toFloat (encNum ((fnOf nutA).dataPoints))
    ∧ (mkMeasurement (fnOf nutA)).dataPoints = PropVal.int 3
    ∧ toFloat (encNum ((fnOf nutA).dataPoints)) = PropVal.float 3 := by
  refine ⟨by decide, by decide, by decide⟩

/-- Claim C2 (amended): when the referenced food and nutrient nodes
exist, exactly one HAS_NUTRIENT relationship is created per
food-nutrient pair, in input order; amount, min, max and median are
coerced to floating point (absent values pass through as null — in
particular an absent amount yields null, not zero), while dataPoints
and the derivation fields are passed through unchanged. -/
theorem measurement_relationships_spec (s : GraphState) (foods : List Food)
    (hf : ∀ f ∈ foods, s.foods.any (fun g => g.fdcId == f.fdcId) = true)
    (hn : ∀ f ∈ foods, ∀ fn ∈ f.foodNutrients.getD [],
      s.nutrients.any (fun n => n.id == fn.nutrient.id) = true) :
    (create_nutrient_relationships s foods).hasNutrient
      = s.hasNutrient
        ++ (foods.map (fun f => (f.foodNutrients.getD []).map
              (fun fn => (f.fdcId, fn.nutrient.id, mkMeasurement fn)))).flatten
    ∧ (∀ fn : FoodNutrient, fn.amount = none →
        ((mkMeasurement fn).amount = PropVal.null
          ∧ (mkMeasurement fn).amount ≠ PropVal.float 0
          ∧ (mkMeasurement fn).amount ≠ PropVal.int 0))
    ∧ (∀ (fn : FoodNutrient) (j : JNum), fn.amount = some j →
        (mkMeasurement fn).amount = PropVal.float j.toRat)
    ∧ (∀ fn : FoodNutrient,
        (mkMeasurement fn).min = toFloat (encNum fn.min)
        ∧ (mkMeasurement fn).max = toFloat (encNum fn.max)
        ∧ (mkMeasurement fn).median = toFloat (encNum fn.median)
        ∧ (mkMeasurement fn).dataPoints = encNum fn.dataPoints
        ∧ (mkMeasurement fn).derivationCode
            = encStr (fn.foodNutrientDerivation.bind (fun d => d.code))
        ∧ (mkMeasurement fn).derivationDescription
            = encStr (fn.foodNutrientDerivation.bind (fun d => d.description))) := by
  refine ⟨create_rels_hasNutrient foods s hf hn, ?_, ?_, ?_⟩
  · intro fn h
    refine ⟨?_, ?_, ?_⟩ <;> simp [mkMeasurement, h, encNum, toFloat]
  · intro fn j h
    cases j <;> simp [mkMeasurement, h, encNum, toFloat, JNum.toRat]
  · intro fn
    exact ⟨rfl, rfl, rfl, rfl, rfl, rfl⟩

/-- Claim C2 witness: with the nodes of foodA and nutA present,
loading foodA creates its single measurement row, and a present
integer amount is stored as a float. -/
theorem measurement_relationships_spec_witness :
    (create_nutrient_relationships storeForRels [foodA]).hasNutrient
      = storeForRels.hasNutrient
        ++ ([foodA].map (fun f => (f.foodNutrients.getD []).map
              (fun fn => (f.fdcId, fn.nutrient.id, mkMeasurement fn)))).flatten
    ∧ (mkMeasurement (fnOf nutA)).amount = PropVal.float (JNum.toRat (.jint 5)) :=
  ⟨(measurement_relationships_spec storeForRels [foodA] (by decide) (by decide)).1,
   (measurement_relationships_spec storeForRels [foodA] (by decide) (by decide)).2.2.1
     (fnOf nutA) (.jint 5) rfl⟩

/-- Claim C3: create_foods_and_categories unconditionally creates each
food node, so running it against a store already containing one of the
input food identifiers aborts with a uniqueness-constraint error. -/
theorem rerun_fails_uniqueness (s : GraphState) (foods : List Food)
    (h : ∃ f ∈ foods, ∃ g ∈ s.foods, g.fdcId = f.fdcId) :
    ∃ e, create_foods_and_categories s foods = .error e := by
  rw [create_foods_eq]
  exact foldE_processFood_dup foods s h

/-- Claim C3 witness: re-running the food phase on a store already
holding foodA errors. -/
theorem rerun_fails_uniqueness_witness :
    ∃ e, create_foods_and_categories storeWithFoodA [foodA] = .error e :=
  rerun_fails_uniqueness storeWithFoodA [foodA]
    ⟨foodA, List.mem_singleton.mpr rfl, mkFoodNode foodA, List.mem_singleton.mpr rfl, rfl⟩

/-- Claim C6: referential integrity — the empty store satisfies it and
every loader phase preserves it, the HAS_NUTRIENT phase by its
existence checks. -/
theorem referential_integrity :
    relIntegrity emptyGraph
    ∧ (∀ (s : GraphState) (foods : List Food),
        relIntegrity s → relIntegrity (create_nutrients s foods))
    ∧ (∀ (s : GraphState) (foods : List Food) (s1 : GraphState),
        create_foods_and_categories s foods = .ok s1 →
        relIntegrity s → relIntegrity s1)
    ∧ (∀ (s : GraphState) (foods : List Food),
        relIntegrity s → relIntegrity (create_nutrient_relationships s foods)) := by
  refine ⟨?_, ?_, ?_, ?_⟩
  · intro r hr
    cases hr
  · intro s foods hs r hr
    rw [create_nutrients_eq] at hr ⊢
    rcases foldl_merge_fields (collectNutrients foods) s with ⟨hfoods, _, _, hrels⟩
    rw [hrels] at hr
    rcases hs r hr with ⟨⟨g, hg, hgid⟩, n, hn, hnid⟩
    constructor
    · exact ⟨g, by rw [hfoods]; exact hg, hgid⟩
    · exact ⟨n, foldl_merge_mem _ s n hn, hnid⟩
  · intro s foods s1 h hs r hr
    rw [create_foods_eq] at h
    rcases foldE_processFood_ok foods s s1 h with ⟨_, hnut, hrel, hfoods⟩
    rw [hrel] at hr
    rcases hs r hr with ⟨⟨g, hg, hgid⟩, n, hn, hnid⟩
    exact ⟨⟨g, hfoods g hg, hgid⟩, n, by rw [hnut]; exact hn, hnid⟩
  · exact fun s foods hs => create_rels_integrity foods s hs

/-- Claim C6 witness: the store after running the HAS_NUTRIENT phase
on the empty store satisfies referential integrity. -/
theorem referential_integrity_witness :
    relIntegrity (create_nutrient_relationships emptyGraph [foodA]) :=
  referential_integrity.2.2.2 emptyGraph [foodA] (fun r hr => by cases hr)

/-- Claim C7: on success, create_foods_and_categories appends exactly
one BELONGS_TO relationship per input food, linking it to its category,
in input order. -/
theorem one_belongsTo_per_food (s : GraphState) (foods : List Food) (s1 : GraphState)
    (h : create_foods_and_categories s foods = .ok s1) :
    s1.belongsTo = s.belongsTo ++ foods.map (fun f => (f.fdcId, f.foodCategory.id)) := by
  rw [create_foods_eq] at h
  exact (foldE_processFood_ok foods s s1 h).1

/-- Claim C7 witness: loading foodA into the empty store creates
exactly its single category relationship. -/
theorem one_belongsTo_per_food_witness :
    storeAfterFoodA.belongsTo
      = emptyGraph.belongsTo ++ [foodA].map (fun f => (f.fdcId, f.foodCategory.id)) :=
  one_belongsTo_per_food emptyGraph [foodA] storeAfterFoodA
    (by rw [create_foods_eq]; rfl)

/-- Claim C9: load_json_data fails on malformed input and on a
document lacking the FoundationFoods key, and returns the parsed
document when the key is present. -/
theorem load_json_data_spec :
    (∃ e, load_json_data none = .error e)
    ∧ (∀ d : JsonDoc, d.FoundationFoods = none →
        ∃ e, load_json_data (some d) = .error e)
    ∧ (∀ (d : JsonDoc) (fs : List Food), d.FoundationFoods = some fs →
        load_json_data (some d) = .ok d) := by
  refine ⟨⟨.parseError, rfl⟩, ?_, ?_⟩
  · intro d h
    exact ⟨.keyError, by simp [load_json_data, h]⟩
  · intro d fs h
    simp [load_json_data, h]

/-- Claim C9 witness: concrete documents with and without the key. -/
theorem load_json_data_spec_witness :
    (∃ e, load_json_data (some docWithoutFoods) = .error e)
    ∧ load_json_data (some docWithFoods) = .ok docWithFoods :=
  ⟨load_json_data_spec.2.1 docWithoutFoods rfl,
   load_json_data_spec.2.2 docWithFoods [foodA] rfl⟩

/-- Claim C10: a food record lacking the foodNutrients key contributes
no nutrients and no HAS_NUTRIENT relationships, and both phases behave
on a list containing it exactly as on the list without it. -/
theorem missing_foodNutrients_safe (f : Food) (h : f.foodNutrients = none)
    (s : GraphState) (pre post : List Food) :
    measurementsFor s f = []
    ∧ create_nutrients s (pre ++ f :: post) = create_nutrients s (pre ++ post)
    ∧ create_nutrient_relationships s (pre ++ f :: post)
        = create_nutrient_relationships s (pre ++ post) := by
  have hget : f.foodNutrients.getD [] = [] := by rw [h]; rfl
  have hms : ∀ s1 : GraphState, measurementsFor s1 f = [] := by
    intro s1
    unfold measurementsFor
    rw [hget]
    by_cases hc : s1.foods.any (fun g => g.fdcId == f.fdcId) = true
    · rw [if_pos hc]
      rfl
    · rw [if_neg hc]
  refine ⟨hms s, ?_, ?_⟩
  · rw [create_nutrients_eq, create_nutrients_eq]
    have hcf : ∀ m, collectFood m f = m := by
      intro m
      unfold collectFood
      rw [hget]
      rfl
    have hcoll : collectNutrients (pre ++ f :: post) = collectNutrients (pre ++ post) := by
      unfold collectNutrients
      rw [List.foldl_append, List.foldl_append, List.foldl_cons, hcf]
    rw [hcoll]
  · unfold create_nutrient_relationships
    simp only [List.foldl_append, List.foldl_cons]
    have hstep : ∀ s1 : GraphState,
        { s1 with hasNutrient := s1.hasNutrient ++ measurementsFor s1 f } = s1 := by
      intro s1
      rw [hms s1, List.append_nil]
    rw [hstep]

/-- Claim C10 witness: foodNoNutrients is skipped harmlessly between
foodA and foodB. -/
theorem missing_foodNutrients_safe_witness :
    measurementsFor emptyGraph foodNoNutrients = []
    ∧ create_nutrients emptyGraph ([foodA] ++ foodNoNutrients :: [foodB])
        = create_nutrients emptyGraph ([foodA] ++ [foodB])
    ∧ create_nutrient_relationships emptyGraph ([foodA] ++ foodNoNutrients :: [foodB])
        = create_nutrient_relationships emptyGraph ([foodA] ++ [foodB]) :=
  missing_foodNutrients_safe foodNoNutrients rfl emptyGraph [foodA] [foodB]

end FdaFood
